import Mathlib

/-!
Verification of the fractal generators of this repository: the IFS
orbit generator and the Clifford attractor (ifs.py), and the
Lindenmayer rewriter together with its turtle interpreter (lsys.py).

Numeric code (float32 in the source) is modelled over exact fields:
rationals where no transcendental function occurs, reals otherwise.
Randomness (np.random.random per iteration) is modelled as an explicit
stream of draws indexed by the iteration number.  Failures (numpy
exceptions: negative allocation size, out-of-bounds writes) are
modelled with Option.
-/

/-- Inner scan of `ifs`: iterate j over the indices of p in order and
return the first j with temp > p[j] (the loop breaks on the first
match); none when no threshold matches. -/
def scanSelect (p : List ℚ) (temp : ℚ) : Option ℕ :=
  match p with
  | [] => none
  | pj :: rest => if temp > pj then some 0 else (scanSelect rest temp).map (· + 1)

/-- Body of one iteration of `ifs`: select a map by the scan and apply
the affine transform to the previous point; when no threshold matches,
the slot keeps its zero initialisation. -/
def ifsStep (p a b c d e f : List ℚ) (temp : ℚ) (prev : ℚ × ℚ) : ℚ × ℚ :=
  match scanSelect p temp with
  | some j =>
      (a.getD j 0 * prev.1 + b.getD j 0 * prev.2 + e.getD j 0,
       c.getD j 0 * prev.1 + d.getD j 0 * prev.2 + f.getD j 0)
  | none => (0, 0)

/-- Orbit of the chaos game: point i of the arrays filled by `ifs`,
where draws i is the uniform sample drawn at iteration i. -/
def ifsOrbit (p a b c d e f : List ℚ) (draws : ℕ → ℚ) : ℕ → ℚ × ℚ
  | 0 => (0, 0)
  | i + 1 => ifsStep p a b c d e f (draws (i + 1)) (ifsOrbit p a b c d e f draws i)

/-- Model of `ifs(lvl, p, a, b, c, d, e, f)`: after lvl += 1 the two
arrays of size lvl are allocated (np.zeros fails on a negative size,
modelled as none) and the loop fills indices 1..lvl-1. -/
def ifs (lvl : ℤ) (p a b c d e f : List ℚ) (draws : ℕ → ℚ) :
    Option (List ℚ × List ℚ) :=
  if lvl + 1 < 0 then none
  else
    some ((List.range (lvl + 1).toNat).map (fun i => (ifsOrbit p a b c d e f draws i).1),
          (List.range (lvl + 1).toNat).map (fun i => (ifsOrbit p a b c d e f draws i).2))

/-- Model of `rewrite_rules.get(symbol, symbol)`: look the symbol up in
the rule list, returning the symbol itself when no rule is registered. -/
def rulesGet : List (Char × List Char) → Char → List Char
  | [], symbol => [symbol]
  | (k, v) :: rest, symbol => if symbol = k then v else rulesGet rest symbol

/-- One rewrite pass of `generate_pattern`: every symbol of states is
replaced simultaneously, then the pieces are joined. -/
def applyRules (rewrite_rules : List (Char × List Char)) (states : List Char) :
    List Char :=
  (states.map (rulesGet rewrite_rules)).flatten

/-- The rewriting loop of `generate_pattern`: n updates of states. -/
def rewriteLoop (rewrite_rules : List (Char × List Char)) : ℕ → List Char → List Char
  | 0, states => states
  | n + 1, states => rewriteLoop rewrite_rules n (applyRules rewrite_rules states)

/-- The drawing alphabet used by the final filter of `generate_pattern`. -/
def drawing_rules : List Char := ['F', '+', '-']

/-- Final filter of `generate_pattern`: keep the drawing symbols. -/
def filterDrawing (states : List Char) : List Char :=
  states.filter (fun symbol => drawing_rules.contains symbol)

/-- Model of `generate_pattern(lvl, states, rewrite_rules)`: the loop
runs range(lvl + 1) times (empty for a negative bound) and the result
is filtered to the drawing alphabet. -/
def generate_pattern (lvl : ℤ) (states : List Char)
    (rewrite_rules : List (Char × List Char)) : List Char :=
  filterDrawing (rewriteLoop rewrite_rules (lvl + 1).toNat states)

/-- Model of `np.radians`. -/
noncomputable def radians (deg : ℝ) : ℝ := deg * Real.pi / 180

/-- A 2x2 real matrix, as built by `calc_rot_matrix`. -/
structure Mat2 where
  m00 : ℝ
  m01 : ℝ
  m10 : ℝ
  m11 : ℝ

/-- Model of `calc_rot_matrix(angle)`: the rotation matrix
[[cos, -sin], [sin, cos]]. -/
noncomputable def calc_rot_matrix (angle : ℝ) : Mat2 :=
  ⟨Real.cos angle, -Real.sin angle, Real.sin angle, Real.cos angle⟩

/-- Model of `np.dot(M, vec)` for a 2x2 matrix and a column vector. -/
noncomputable def Mat2.mulVec (M : Mat2) (v : ℝ × ℝ) : ℝ × ℝ :=
  (M.m00 * v.1 + M.m01 * v.2, M.m10 * v.1 + M.m11 * v.2)

/-- State of the loop of `generate_points`: the points array, the next
write index, and the current displacement vector. -/
structure TurtleState where
  points : List (ℝ × ℝ)
  idx : ℕ
  vec : ℝ × ℝ

/-- Body of the loop of `generate_points` for one symbol: rotate on +
and -, otherwise write points[:, idx] = points[:, idx-1] + vec, which
raises IndexError (none) when idx is out of bounds. -/
noncomputable def turtleStep (rot_left rot_right : Mat2) (s : TurtleState)
    (st : Char) : Option TurtleState :=
  if st = '+' then some { s with vec := rot_right.mulVec s.vec }
  else if st = '-' then some { s with vec := rot_left.mulVec s.vec }
  else if s.idx < s.points.length then
    let prev := s.points.getD (s.idx - 1) (0, 0)
    some { s with
      points := s.points.set s.idx (prev.1 + s.vec.1, prev.2 + s.vec.2),
      idx := s.idx + 1 }
  else none

/-- The loop of `generate_points` over the symbol string. -/
noncomputable def runTurtle (rot_left rot_right : Mat2) :
    TurtleState → List Char → Option TurtleState
  | s, [] => some s
  | s, st :: rest =>
    match turtleStep rot_left rot_right s st with
    | none => none
    | some s2 => runTurtle rot_left rot_right s2 rest

/-- Model of `generate_points(alpha, theta, length, states)`: build the
initial displacement vector of the given length, the two rotation
matrices, a zero array of states.count('F') + 1 points, and run the
symbol loop starting at write index 1. -/
noncomputable def generate_points (alpha theta length : ℝ) (states : List Char) :
    Option (List (ℝ × ℝ)) :=
  let alphar := radians alpha
  let thetar := radians theta
  let vec0 : ℝ × ℝ := (Real.cos alphar, Real.sin alphar)
  let vec_len : ℝ := Real.sqrt (vec0.1 ^ 2 + vec0.2 ^ 2)
  let vec : ℝ × ℝ := (vec0.1 / vec_len * length, vec0.2 / vec_len * length)
  let rot_left := calc_rot_matrix thetar
  let rot_right := calc_rot_matrix (-thetar)
  let s0 : TurtleState := ⟨List.replicate (states.count 'F' + 1) (0, 0), 1, vec⟩
  (runTurtle rot_left rot_right s0 states).map TurtleState.points

/-- Orbit of `clifford_attractor`: point i of the arrays it fills. -/
noncomputable def cliffordOrbit (a b c d : ℝ) : ℕ → ℝ × ℝ
  | 0 => (0, 0)
  | i + 1 =>
    let prev := cliffordOrbit a b c d i
    (Real.sin (a * prev.2) + c * Real.cos (a * prev.1),
     Real.sin (b * prev.1) + d * Real.cos (b * prev.2))

/-- Model of `clifford_attractor(lvl, a, b, c, d)`: after lvl += 1 the
two arrays of size lvl are allocated (none on a negative size) and the
loop fills indices 1..lvl-1 by the deterministic recurrence. -/
noncomputable def clifford_attractor (lvl : ℤ) (a b c d : ℝ) :
    Option (List ℝ × List ℝ) :=
  if lvl + 1 < 0 then none
  else
    some ((List.range (lvl + 1).toNat).map (fun i => (cliffordOrbit a b c d i).1),
          (List.range (lvl + 1).toNat).map (fun i => (cliffordOrbit a b c d i).2))

/-! ## Helper lemmas -/

/-- Indexing the generator output arrays: entry i of the mapped range. -/
lemma getD_range_map {α : Type} (g : ℕ → α) (n i : ℕ) (d : α) (h : i < n) :
    ((List.range n).map g).getD i d = g i := by
  rw [List.getD_eq_getElem ((List.range n).map g) d (by simpa using h)]
  rw [List.getElem_map, List.getElem_range]

/-- The scan finds a match as soon as some threshold lies below the draw. -/
lemma scanSelect_isSome_of_mem (p : List ℚ) (u : ℚ) (h : ∃ v ∈ p, v < u) :
    ∃ j, scanSelect p u = some j := by
  induction p with
  | nil => simp at h
  | cons px rest ih =>
    by_cases hx : u > px
    · exact ⟨0, by simp [scanSelect, hx]⟩
    · obtain ⟨v, hv, hvu⟩ := h
      rcases List.mem_cons.mp hv with rfl | hv
      · exact absurd hvu hx
      · obtain ⟨j, hj⟩ := ih ⟨v, hv, hvu⟩
        exact ⟨j + 1, by simp [scanSelect, hx, hj]⟩

/-- With the -1 sentinel as last threshold and a nonnegative draw, the
scan of `ifs` always selects a map. -/
lemma scanSelect_isSome_of_sentinel (p : List ℚ) (u : ℚ)
    (hlast : p.getLast? = some (-1)) (hu : 0 ≤ u) :
    ∃ j, scanSelect p u = some j := by
  apply scanSelect_isSome_of_mem
  obtain ⟨hne, heq⟩ :=
    List.mem_getLast?_eq_getLast (Option.mem_def.mpr hlast)
  refine ⟨-1, by rw [heq]; exact List.getLast_mem hne, by linarith⟩

/-- Characterisation of the scan: the selected index is in range, its
threshold is below the draw, and every earlier threshold is not. -/
lemma scanSelect_spec (p : List ℚ) (u : ℚ) (j : ℕ)
    (h : scanSelect p u = some j) :
    j < p.length ∧ p.getD j 0 < u ∧ ∀ k, k < j → ¬ p.getD k 0 < u := by
  induction p generalizing j with
  | nil => simp [scanSelect] at h
  | cons px rest ih =>
    by_cases hx : u > px
    · simp [scanSelect, hx] at h
      subst h
      exact ⟨by simp, by simpa using hx, by omega⟩
    · simp [scanSelect, hx] at h
      obtain ⟨j2, hj2, rfl⟩ := h
      obtain ⟨ha, hb, hc⟩ := ih j2 hj2
      refine ⟨by simpa using Nat.succ_lt_succ ha, by simpa using hb, ?_⟩
      intro k hk
      cases k with
      | zero => simpa using hx
      | succ k2 => simpa using hc k2 (Nat.lt_of_succ_lt_succ hk)

/-- The rewriting loop is iteration of the one-pass function. -/
lemma rewriteLoop_eq_iterate (rewrite_rules : List (Char × List Char)) :
    ∀ (n : ℕ) (states : List Char),
      rewriteLoop rewrite_rules n states = (applyRules rewrite_rules)^[n] states := by
  intro n
  induction n with
  | zero => intro s; rfl
  | succ k ih => intro s; rw [rewriteLoop, ih, Function.iterate_succ_apply]

/-! ## Claim theorems -/

/-- C2: for every rule set and initial string, the rewriting phase of
generate_pattern with iterationCount = N performs exactly N + 1 full
rewrite passes; each pass replaces every symbol of the previous pass's
output simultaneously (the pass is a homomorphism on concatenation
applied to the previous string only, so a symbol produced mid-pass is
never expanded in the same pass), and a symbol with no registered rule
is replaced by itself. -/
theorem generate_pattern_simultaneous_passes
    (rewrite_rules : List (Char × List Char)) (N : ℕ) (states : List Char) :
    generate_pattern (N : ℤ) states rewrite_rules =
      filterDrawing ((applyRules rewrite_rules)^[N + 1] states) ∧
    (∀ t u : List Char, applyRules rewrite_rules (t ++ u) =
      applyRules rewrite_rules t ++ applyRules rewrite_rules u) ∧
    (∀ symbol : Char,
      applyRules rewrite_rules [symbol] = rulesGet rewrite_rules symbol) := by
  refine ⟨?_, ?_, ?_⟩
  · have htn : ((N : ℤ) + 1).toNat = N + 1 := by omega
    rw [generate_pattern, htn, rewriteLoop_eq_iterate]
  · intro t u; simp [applyRules]
  · intro symbol; simp [applyRules]

/-- C5 counterexample: expand with iterationCount = 0, initial string
"F" and the rule F -> "F+F-F" performs one pass, not two, and yields
the pre-filter string "F+F-F", which differs from the string
"F+F-F+F+F-F-F+F-F" asserted by the claim. -/
theorem expand_zero_single_pass_cex :
    rewriteLoop [('F', ['F', '+', 'F', '-', 'F'])] ((0 : ℤ) + 1).toNat ['F'] =
      ['F', '+', 'F', '-', 'F'] ∧
    generate_pattern 0 ['F'] [('F', ['F', '+', 'F', '-', 'F'])] =
      ['F', '+', 'F', '-', 'F'] ∧
    (['F', '+', 'F', '-', 'F'] : List Char) ≠
      ['F', '+', 'F', '-', 'F', '+', 'F', '+', 'F', '-', 'F', '-', 'F', '+',
       'F', '-', 'F'] := by
  refine ⟨rfl, rfl, by decide⟩

/-- C5 amended: expand with iterationCount = 0 performs one rewrite
pass and yields "F+F-F"; the string "F+F-F+F+F-F-F+F-F" is the
pre-filter result of iterationCount = 1, i.e. of two passes. -/
theorem expand_one_two_passes :
    generate_pattern 0 ['F'] [('F', ['F', '+', 'F', '-', 'F'])] =
      ['F', '+', 'F', '-', 'F'] ∧
    rewriteLoop [('F', ['F', '+', 'F', '-', 'F'])] ((1 : ℤ) + 1).toNat ['F'] =
      ['F', '+', 'F', '-', 'F', '+', 'F', '+', 'F', '-', 'F', '-', 'F', '+',
       'F', '-', 'F'] ∧
    generate_pattern 1 ['F'] [('F', ['F', '+', 'F', '-', 'F'])] =
      ['F', '+', 'F', '-', 'F', '+', 'F', '+', 'F', '-', 'F', '-', 'F', '+',
       'F', '-', 'F'] := by
  refine ⟨rfl, rfl, rfl⟩

/-- C8: under the precondition that the last threshold is the sentinel
-1.0 (below every draw from [0,1), all of which are nonnegative), the
inner scan of the IFS orbit generator selects a map on every draw: the
no-match branch in which slot i would be left unwritten is
unreachable. -/
theorem ifs_scan_sentinel_total (p : List ℚ) (u : ℚ)
    (hlast : p.getLast? = some (-1)) (hu : 0 ≤ u) :
    ∃ j, scanSelect p u = some j :=
  scanSelect_isSome_of_sentinel p u hlast hu

/-- Witness for C8 at p = [-1], u = 0. -/
theorem ifs_scan_sentinel_total_witness :
    ([(-1 : ℚ)].getLast? = some (-1) ∧ (0 : ℚ) ≤ 0) ∧
    ∃ j, scanSelect [(-1 : ℚ)] 0 = some j :=
  ⟨⟨rfl, le_refl 0⟩, ifs_scan_sentinel_total [(-1 : ℚ)] 0 rfl (le_refl 0)⟩

/-- C6: for every iterationCount >= 0, both the IFS orbit generator and
the Clifford attractor return x and y arrays of length exactly
iterationCount + 1 whose entry 0 is 0 (point 0 is the origin) for any
map or attractor parameters, and iterationCount = 0 yields the
single-point sequence at the origin. -/
theorem generators_length_and_origin (lvl : ℕ) (p a b c d e f : List ℚ)
    (draws : ℕ → ℚ) (ca cb cc cd : ℝ) :
    ∃ (xs ys : List ℚ) (cxs cys : List ℝ),
      ifs (lvl : ℤ) p a b c d e f draws = some (xs, ys) ∧
      clifford_attractor (lvl : ℤ) ca cb cc cd = some (cxs, cys) ∧
      xs.length = lvl + 1 ∧ ys.length = lvl + 1 ∧
      cxs.length = lvl + 1 ∧ cys.length = lvl + 1 ∧
      xs.getD 0 0 = 0 ∧ ys.getD 0 0 = 0 ∧
      cxs.getD 0 0 = 0 ∧ cys.getD 0 0 = 0 ∧
      (lvl = 0 → xs = [0] ∧ ys = [0] ∧ cxs = [0] ∧ cys = [0]) := by
  have hpos : ¬ ((lvl : ℤ) + 1 < 0) := by omega
  have htn : ((lvl : ℤ) + 1).toNat = lvl + 1 := by omega
  refine ⟨(List.range (lvl + 1)).map (fun i => (ifsOrbit p a b c d e f draws i).1),
          (List.range (lvl + 1)).map (fun i => (ifsOrbit p a b c d e f draws i).2),
          (List.range (lvl + 1)).map (fun i => (cliffordOrbit ca cb cc cd i).1),
          (List.range (lvl + 1)).map (fun i => (cliffordOrbit ca cb cc cd i).2),
          ?_, ?_, by simp, by simp, by simp, by simp, ?_, ?_, ?_, ?_, ?_⟩
  · simp [ifs, hpos, htn]
  · simp [clifford_attractor, hpos, htn]
  · rw [getD_range_map _ _ _ _ (by omega)]; rfl
  · rw [getD_range_map _ _ _ _ (by omega)]; rfl
  · rw [getD_range_map _ _ _ _ (by omega)]; rfl
  · rw [getD_range_map _ _ _ _ (by omega)]; rfl
  · intro h
    subst h
    refine ⟨?_, ?_, ?_, ?_⟩ <;> simp [List.range_succ, ifsOrbit, cliffordOrbit]

/-- Witness for C6 at iterationCount = 0 with the single-map sentinel
parameters. -/
theorem generators_length_and_origin_witness :
    ∃ (xs ys : List ℚ) (cxs cys : List ℝ),
      ifs ((0 : ℕ) : ℤ) [(-1 : ℚ)] [0] [0] [0] [0] [0] [0] (fun _ => 0) =
        some (xs, ys) ∧
      clifford_attractor ((0 : ℕ) : ℤ) 1 1 1 1 = some (cxs, cys) ∧
      xs.length = 0 + 1 ∧ ys.length = 0 + 1 ∧
      cxs.length = 0 + 1 ∧ cys.length = 0 + 1 ∧
      xs.getD 0 0 = 0 ∧ ys.getD 0 0 = 0 ∧
      cxs.getD 0 0 = 0 ∧ cys.getD 0 0 = 0 ∧
      ((0 : ℕ) = 0 → xs = [0] ∧ ys = [0] ∧ cxs = [0] ∧ cys = [0]) :=
  generators_length_and_origin 0 [(-1 : ℚ)] [0] [0] [0] [0] [0] [0]
    (fun _ => 0) 1 1 1 1

/-- C4: the Clifford attractor computes, for every i below
iterationCount and starting from the origin, the deterministic
recurrence x[i+1] = sin(a*y[i]) + c*cos(a*x[i]) and
y[i+1] = sin(b*x[i]) + d*cos(b*y[i]) with no randomness, and its output
is uniquely determined by (iterationCount, a, b, c, d). -/
theorem clifford_recurrence_deterministic (lvl : ℕ) (a b c d : ℝ) :
    ∃ xs ys : List ℝ,
      clifford_attractor (lvl : ℤ) a b c d = some (xs, ys) ∧
      xs.getD 0 0 = 0 ∧ ys.getD 0 0 = 0 ∧
      (∀ i, i < lvl →
        xs.getD (i + 1) 0 =
          Real.sin (a * ys.getD i 0) + c * Real.cos (a * xs.getD i 0) ∧
        ys.getD (i + 1) 0 =
          Real.sin (b * xs.getD i 0) + d * Real.cos (b * ys.getD i 0)) ∧
      (∀ r₁ r₂, clifford_attractor (lvl : ℤ) a b c d = r₁ →
        clifford_attractor (lvl : ℤ) a b c d = r₂ → r₁ = r₂) := by
  have hpos : ¬ ((lvl : ℤ) + 1 < 0) := by omega
  have htn : ((lvl : ℤ) + 1).toNat = lvl + 1 := by omega
  refine ⟨(List.range (lvl + 1)).map (fun i => (cliffordOrbit a b c d i).1),
          (List.range (lvl + 1)).map (fun i => (cliffordOrbit a b c d i).2),
          ?_, ?_, ?_, ?_, ?_⟩
  · simp [clifford_attractor, hpos, htn]
  · rw [getD_range_map _ _ _ _ (by omega)]; rfl
  · rw [getD_range_map _ _ _ _ (by omega)]; rfl
  · intro i hi
    constructor <;>
      · rw [getD_range_map _ _ _ _ (by omega), getD_range_map _ _ _ _ (by omega),
            getD_range_map _ _ _ _ (by omega)]
        simp [cliffordOrbit]
  · intro r₁ r₂ h₁ h₂
    exact h₁.symm.trans h₂

/-- Witness for C4 at iterationCount = 1, a = b = c = d = 1. -/
theorem clifford_recurrence_deterministic_witness :
    ∃ xs ys : List ℝ,
      clifford_attractor ((1 : ℕ) : ℤ) 1 1 1 1 = some (xs, ys) ∧
      xs.getD 0 0 = 0 ∧ ys.getD 0 0 = 0 ∧
      (∀ i, i < 1 →
        xs.getD (i + 1) 0 =
          Real.sin (1 * ys.getD i 0) + 1 * Real.cos (1 * xs.getD i 0) ∧
        ys.getD (i + 1) 0 =
          Real.sin (1 * xs.getD i 0) + 1 * Real.cos (1 * ys.getD i 0)) ∧
      (∀ r₁ r₂, clifford_attractor ((1 : ℕ) : ℤ) 1 1 1 1 = r₁ →
        clifford_attractor ((1 : ℕ) : ℤ) 1 1 1 1 = r₂ → r₁ = r₂) :=
  clifford_recurrence_deterministic 1 1 1 1 1

/-- C9 counterexample: with iterationCount = -1 neither generator fails
with an invalid-argument error: ifs returns empty coordinate arrays and
the rewriter performs zero passes, returning the filtered initial
string. -/
theorem negative_lvl_no_error_cex :
    ifs (-1) [(-1 : ℚ)] [0] [0] [0] [0] [0] [0] (fun _ => 0) = some ([], []) ∧
    generate_pattern (-1) ['F'] [('F', ['F', '+', 'F', '-', 'F'])] = ['F'] := by
  refine ⟨rfl, rfl⟩

/-- C9 amended: negative iteration counts are not rejected with an
invalid-argument error: ifs with iterationCount = -1 returns empty
arrays, ifs with iterationCount < -1 fails only with the negative
allocation-size error of np.zeros, and the L-system rewriter performs
zero rewrite passes for every negative count, returning the filtered
initial string; iterationCount = 0 is valid and produces the
single-point origin-only IFS output. -/
theorem iteration_count_edge_behavior (p a b c d e f : List ℚ)
    (draws : ℕ → ℚ) (rewrite_rules : List (Char × List Char))
    (states : List Char) (lvl : ℤ) (hneg : lvl < 0) :
    ifs (-1) p a b c d e f draws = some ([], []) ∧
    (lvl < -1 → ifs lvl p a b c d e f draws = none) ∧
    generate_pattern lvl states rewrite_rules = filterDrawing states ∧
    ifs 0 p a b c d e f draws = some ([0], [0]) := by
  refine ⟨?_, ?_, ?_, ?_⟩
  · have h : ¬ ((-1 : ℤ) + 1 < 0) := by omega
    have htn : ((-1 : ℤ) + 1).toNat = 0 := by omega
    simp [ifs, h, htn]
  · intro h
    rw [ifs, if_pos (by omega)]
  · have htn : (lvl + 1).toNat = 0 := by omega
    rw [generate_pattern, htn, rewriteLoop]
  · have h : ¬ ((0 : ℤ) + 1 < 0) := by omega
    have htn : ((0 : ℤ) + 1).toNat = 1 := by omega
    simp [ifs, h, htn, List.range_succ, ifsOrbit]

/-- Witness for C9 amended at iterationCount = -2. -/
theorem iteration_count_edge_behavior_witness :
    ((-2 : ℤ) < 0) ∧
    (ifs (-1) [(-1 : ℚ)] [0] [0] [0] [0] [0] [0] (fun _ => 0) =
        some ([], []) ∧
      ((-2 : ℤ) < -1 →
        ifs (-2) [(-1 : ℚ)] [0] [0] [0] [0] [0] [0] (fun _ => 0) = none) ∧
      generate_pattern (-2) ['F'] [] = filterDrawing ['F'] ∧
      ifs 0 [(-1 : ℚ)] [0] [0] [0] [0] [0] [0] (fun _ => 0) =
        some ([0], [0])) :=
  ⟨by decide,
   iteration_count_edge_behavior [(-1 : ℚ)] [0] [0] [0] [0] [0] [0]
     (fun _ => 0) [] ['F'] (-2) (by decide)⟩

/-- C1: for every iterationCount >= 0 and every map set satisfying the
preconditions (equal-length parameter arrays, strictly descending
thresholds ending in the -1 sentinel) and draws from [0,1), at each
step i from 1 to iterationCount the orbit generator selects the first
map in list order whose threshold is strictly less than the draw (it
never looks past that match), and writes point i as the affine image of
point i-1 under that map: x = a*x + b*y + e, y = c*x + d*y + f. -/
theorem ifs_first_match_affine (lvl : ℕ) (p a b c d e f : List ℚ)
    (draws : ℕ → ℚ)
    (hla : a.length = p.length) (hlb : b.length = p.length)
    (hlc : c.length = p.length) (hld : d.length = p.length)
    (hle : e.length = p.length) (hlf : f.length = p.length)
    (hdesc : p.Pairwise (· > ·)) (hlast : p.getLast? = some (-1))
    (hdraws : ∀ n, 0 ≤ draws n ∧ draws n < 1)
    (i : ℕ) (h1 : 1 ≤ i) (h2 : i ≤ lvl) :
    ∃ xs ys : List ℚ,
      ifs (lvl : ℤ) p a b c d e f draws = some (xs, ys) ∧
      ∃ j, j < p.length ∧ p.getD j 0 < draws i ∧
        (∀ k, k < j → draws i ≤ p.getD k 0) ∧
        xs.getD i 0 = a.getD j 0 * xs.getD (i - 1) 0
          + b.getD j 0 * ys.getD (i - 1) 0 + e.getD j 0 ∧
        ys.getD i 0 = c.getD j 0 * xs.getD (i - 1) 0
          + d.getD j 0 * ys.getD (i - 1) 0 + f.getD j 0 := by
  have hpos : ¬ ((lvl : ℤ) + 1 < 0) := by omega
  have htn : ((lvl : ℤ) + 1).toNat = lvl + 1 := by omega
  refine ⟨(List.range (lvl + 1)).map (fun n => (ifsOrbit p a b c d e f draws n).1),
          (List.range (lvl + 1)).map (fun n => (ifsOrbit p a b c d e f draws n).2),
          ?_, ?_⟩
  · simp [ifs, hpos, htn]
  · obtain ⟨k0, rfl⟩ : ∃ k0, i = k0 + 1 := ⟨i - 1, by omega⟩
    obtain ⟨j, hj⟩ :=
      scanSelect_isSome_of_sentinel p (draws (k0 + 1)) hlast (hdraws (k0 + 1)).1
    obtain ⟨hjlen, hjlt, hjmin⟩ := scanSelect_spec p (draws (k0 + 1)) j hj
    refine ⟨j, hjlen, hjlt, fun k hk => not_lt.mp (hjmin k hk), ?_, ?_⟩ <;>
      · rw [getD_range_map _ _ _ _ (by omega), getD_range_map _ _ _ _ (by omega),
            getD_range_map _ _ _ _ (by omega)]
        simp only [Nat.add_sub_cancel]
        simp [ifsOrbit, ifsStep, hj]

/-- Witness for C1 with the single sentinel map (2,3,4,5,6,7),
iterationCount = 1, constant draw 0, at step i = 1. -/
theorem ifs_first_match_affine_witness :
    ∃ xs ys : List ℚ,
      ifs ((1 : ℕ) : ℤ) [(-1 : ℚ)] [2] [3] [4] [5] [6] [7] (fun _ => 0) =
        some (xs, ys) ∧
      ∃ j, j < [(-1 : ℚ)].length ∧ [(-1 : ℚ)].getD j 0 < 0 ∧
        (∀ k, k < j → (0 : ℚ) ≤ [(-1 : ℚ)].getD k 0) ∧
        xs.getD 1 0 = ([2] : List ℚ).getD j 0 * xs.getD 0 0
          + ([3] : List ℚ).getD j 0 * ys.getD 0 0 + ([6] : List ℚ).getD j 0 ∧
        ys.getD 1 0 = ([4] : List ℚ).getD j 0 * xs.getD 0 0
          + ([5] : List ℚ).getD j 0 * ys.getD 0 0 + ([7] : List ℚ).getD j 0 :=
  ifs_first_match_affine 1 [(-1 : ℚ)] [2] [3] [4] [5] [6] [7] (fun _ => 0)
    rfl rfl rfl rfl rfl rfl (by simp) rfl
    (fun n => ⟨le_refl 0, by norm_num⟩) 1 (le_refl 1) (le_refl 1)

/-! ## Turtle interpreter lemmas -/

/-- A + symbol rotates the heading with the right-turn matrix. -/
lemma turtleStep_plus (rot_left rot_right : Mat2) (s : TurtleState) :
    turtleStep rot_left rot_right s '+' =
      some { s with vec := rot_right.mulVec s.vec } := by
  simp [turtleStep]

/-- A - symbol rotates the heading with the left-turn matrix. -/
lemma turtleStep_minus (rot_left rot_right : Mat2) (s : TurtleState) :
    turtleStep rot_left rot_right s '-' =
      some { s with vec := rot_left.mulVec s.vec } := by
  simp [turtleStep]

/-- Any other symbol appends position + heading, when in bounds. -/
lemma turtleStep_write (rot_left rot_right : Mat2) (s : TurtleState) (st : Char)
    (hp : st ≠ '+') (hm : st ≠ '-') (hw : s.idx < s.points.length) :
    turtleStep rot_left rot_right s st =
      some { s with
        points := s.points.set s.idx
          ((s.points.getD (s.idx - 1) (0, 0)).1 + s.vec.1,
           (s.points.getD (s.idx - 1) (0, 0)).2 + s.vec.2),
        idx := s.idx + 1 } := by
  simp [turtleStep, hp, hm, hw]

/-- Any other symbol fails with IndexError when the write index is out
of bounds. -/
lemma turtleStep_oob (rot_left rot_right : Mat2) (s : TurtleState) (st : Char)
    (hp : st ≠ '+') (hm : st ≠ '-') (hw : ¬ s.idx < s.points.length) :
    turtleStep rot_left rot_right s st = none := by
  simp [turtleStep, hp, hm, hw]

/-- Setting one entry leaves the other entries unchanged. -/
lemma getD_set_ne {α : Type} (l : List α) (i j : ℕ) (x d : α) (h : i ≠ j) :
    (l.set i x).getD j d = l.getD j d := by
  simp [List.getD, List.getElem?_set_ne h]

/-- Setting an in-bounds entry stores the value there. -/
lemma getD_set_self {α : Type} (l : List α) (i : ℕ) (x d : α)
    (h : i < l.length) :
    (l.set i x).getD i d = x := by
  simp [List.getD, List.getElem?_set_self, h]

/-- The rotation matrices preserve the squared magnitude of a vector. -/
lemma calc_rot_matrix_norm_sq (angle : ℝ) (v : ℝ × ℝ) :
    ((calc_rot_matrix angle).mulVec v).1 ^ 2 +
      ((calc_rot_matrix angle).mulVec v).2 ^ 2 = v.1 ^ 2 + v.2 ^ 2 := by
  simp only [calc_rot_matrix, Mat2.mulVec]
  linear_combination (v.1 ^ 2 + v.2 ^ 2) * Real.sin_sq_add_cos_sq angle

/-- Invariant of the turtle loop on alphabet strings: writes never go
out of bounds, the write index ends at the array length, entry 0 stays
the origin, and every written entry is the previous entry displaced by
a vector of invariant squared magnitude. -/
lemma runTurtle_inv (rot_left rot_right : Mat2) (Lsq : ℝ)
    (hL : ∀ v : ℝ × ℝ, (rot_left.mulVec v).1 ^ 2 + (rot_left.mulVec v).2 ^ 2 =
      v.1 ^ 2 + v.2 ^ 2)
    (hR : ∀ v : ℝ × ℝ, (rot_right.mulVec v).1 ^ 2 + (rot_right.mulVec v).2 ^ 2 =
      v.1 ^ 2 + v.2 ^ 2) :
    ∀ (rest : List Char) (pts : List (ℝ × ℝ)) (k : ℕ) (w : ℝ × ℝ),
      (∀ ch ∈ rest, ch = 'F' ∨ ch = '+' ∨ ch = '-') →
      k + rest.count 'F' = pts.length →
      1 ≤ k →
      w.1 ^ 2 + w.2 ^ 2 = Lsq →
      pts.getD 0 (0, 0) = (0, 0) →
      (∀ i, i + 1 < k →
        ∃ v : ℝ × ℝ, pts.getD (i + 1) (0, 0) =
            ((pts.getD i (0, 0)).1 + v.1, (pts.getD i (0, 0)).2 + v.2) ∧
          v.1 ^ 2 + v.2 ^ 2 = Lsq) →
      ∃ s2, runTurtle rot_left rot_right ⟨pts, k, w⟩ rest = some s2 ∧
        s2.points.length = pts.length ∧
        s2.idx = pts.length ∧
        s2.points.getD 0 (0, 0) = (0, 0) ∧
        (∀ i, i + 1 < s2.idx →
          ∃ v : ℝ × ℝ, s2.points.getD (i + 1) (0, 0) =
              ((s2.points.getD i (0, 0)).1 + v.1,
               (s2.points.getD i (0, 0)).2 + v.2) ∧
            v.1 ^ 2 + v.2 ^ 2 = Lsq) := by
  intro rest
  induction rest with
  | nil =>
    intro pts k w _ hcount _ _ h0 hdist
    refine ⟨⟨pts, k, w⟩, rfl, rfl, ?_, h0, hdist⟩
    simpa using hcount
  | cons ch t ih =>
    intro pts k w halpha hcount hidx hvec h0 hdist
    rcases halpha ch (List.mem_cons_self ch t) with hch | hch | hch
    · -- forward step
      subst hch
      have hcnt : List.count 'F' ('F' :: t) = List.count 'F' t + 1 := by
        simp [List.count_cons]
      have hw : k < pts.length := by omega
      have hdistNew : ∀ i : ℕ, i + 1 < k + 1 →
          ∃ v : ℝ × ℝ,
            (pts.set k ((pts.getD (k - 1) (0, 0)).1 + w.1,
              (pts.getD (k - 1) (0, 0)).2 + w.2)).getD (i + 1) (0, 0) =
              (((pts.set k ((pts.getD (k - 1) (0, 0)).1 + w.1,
                (pts.getD (k - 1) (0, 0)).2 + w.2)).getD i (0, 0)).1 + v.1,
               ((pts.set k ((pts.getD (k - 1) (0, 0)).1 + w.1,
                (pts.getD (k - 1) (0, 0)).2 + w.2)).getD i (0, 0)).2 + v.2) ∧
            v.1 ^ 2 + v.2 ^ 2 = Lsq := by
        intro i hi
        by_cases hcase : i + 1 = k
        · refine ⟨w, ?_, hvec⟩
          have hieq : i = k - 1 := by omega
          rw [hcase, getD_set_self _ _ _ _ hw, hieq,
              getD_set_ne _ _ _ _ _ (by omega)]
        · have hi2 : i + 1 < k := by omega
          obtain ⟨v, hv1, hv2⟩ := hdist i hi2
          refine ⟨v, ?_, hv2⟩
          rw [getD_set_ne _ _ _ _ _ (by omega),
              getD_set_ne _ _ _ _ _ (by omega)]
          exact hv1
      obtain ⟨s2, hrun, hlen2, hidx2, h02, hdist2⟩ :=
        ih (pts.set k ((pts.getD (k - 1) (0, 0)).1 + w.1,
              (pts.getD (k - 1) (0, 0)).2 + w.2)) (k + 1) w
          (fun c hc => halpha c (List.mem_cons_of_mem _ hc))
          (by rw [List.length_set]; omega)
          (by omega)
          hvec
          (by rw [getD_set_ne _ _ _ _ _ (by omega)]; exact h0)
          hdistNew
      refine ⟨s2, ?_, ?_, ?_, h02, hdist2⟩
      · simp only [runTurtle]
        rw [turtleStep_write rot_left rot_right ⟨pts, k, w⟩ 'F'
          (by decide) (by decide) hw]
        exact hrun
      · rw [hlen2, List.length_set]
      · rw [hidx2, List.length_set]
    · -- right turn
      subst hch
      have hcnt : List.count 'F' ('+' :: t) = List.count 'F' t := by
        simp [List.count_cons]
      obtain ⟨s2, hrun, hlen2, hidx2, h02, hdist2⟩ :=
        ih pts k (rot_right.mulVec w)
          (fun c hc => halpha c (List.mem_cons_of_mem _ hc))
          (by omega)
          hidx
          (by rw [hR w]; exact hvec)
          h0
          hdist
      refine ⟨s2, ?_, hlen2, hidx2, h02, hdist2⟩
      simp only [runTurtle]
      rw [turtleStep_plus]
      exact hrun
    · -- left turn
      subst hch
      have hcnt : List.count 'F' ('-' :: t) = List.count 'F' t := by
        simp [List.count_cons]
      obtain ⟨s2, hrun, hlen2, hidx2, h02, hdist2⟩ :=
        ih pts k (rot_left.mulVec w)
          (fun c hc => halpha c (List.mem_cons_of_mem _ hc))
          (by omega)
          hidx
          (by rw [hL w]; exact hvec)
          h0
          hdist
      refine ⟨s2, ?_, hlen2, hidx2, h02, hdist2⟩
      simp only [runTurtle]
      rw [turtleStep_minus]
      exact hrun

/-- C7: for every symbol string over the drawing alphabet (F, +, -),
the turtle interpreter returns exactly count('F') + 1 points, point 0
is the origin, each later point equals the previous point displaced by
the current heading vector, and that heading displacement has magnitude
stepLength across all rotations, so consecutive points are stepLength
apart. -/
theorem turtle_polyline (alpha theta length : ℝ) (hlen : 0 ≤ length)
    (states : List Char)
    (hstates : ∀ ch ∈ states, ch = 'F' ∨ ch = '+' ∨ ch = '-') :
    ∃ pts : List (ℝ × ℝ),
      generate_points alpha theta length states = some pts ∧
      pts.length = states.count 'F' + 1 ∧
      pts.getD 0 (0, 0) = (0, 0) ∧
      (∀ i, i + 1 < pts.length →
        ∃ v : ℝ × ℝ,
          pts.getD (i + 1) (0, 0) =
            ((pts.getD i (0, 0)).1 + v.1, (pts.getD i (0, 0)).2 + v.2) ∧
          Real.sqrt (v.1 ^ 2 + v.2 ^ 2) = length) := by
  have hone : Real.sqrt (Real.cos (radians alpha) ^ 2 +
      Real.sin (radians alpha) ^ 2) = 1 := by
    rw [Real.cos_sq_add_sin_sq, Real.sqrt_one]
  have hnorm : (Real.cos (radians alpha) /
        Real.sqrt (Real.cos (radians alpha) ^ 2 + Real.sin (radians alpha) ^ 2)
          * length) ^ 2 +
      (Real.sin (radians alpha) /
        Real.sqrt (Real.cos (radians alpha) ^ 2 + Real.sin (radians alpha) ^ 2)
          * length) ^ 2 = length ^ 2 := by
    rw [hone]
    linear_combination length ^ 2 * Real.cos_sq_add_sin_sq (radians alpha)
  obtain ⟨s2, hrun, hlen2, hidx2, h02, hdist2⟩ :=
    runTurtle_inv (calc_rot_matrix (radians theta))
      (calc_rot_matrix (-radians theta)) (length ^ 2)
      (calc_rot_matrix_norm_sq _) (calc_rot_matrix_norm_sq _)
      states (List.replicate (states.count 'F' + 1) ((0 : ℝ), (0 : ℝ))) 1
      (Real.cos (radians alpha) /
        Real.sqrt (Real.cos (radians alpha) ^ 2 + Real.sin (radians alpha) ^ 2)
          * length,
       Real.sin (radians alpha) /
        Real.sqrt (Real.cos (radians alpha) ^ 2 + Real.sin (radians alpha) ^ 2)
          * length)
      hstates
      (by rw [List.length_replicate]; omega)
      (le_refl 1)
      hnorm
      (by simp [List.replicate_succ])
      (fun i hi => absurd hi (by omega))
  refine ⟨s2.points, ?_, ?_, h02, ?_⟩
  · show generate_points alpha theta length states = some s2.points
    simp only [generate_points]
    rw [hrun]
    rfl
  · rw [hlen2, List.length_replicate]
  · intro i hi
    have hi2 : i + 1 < s2.idx := by rw [hidx2, ← hlen2]; exact hi
    obtain ⟨v, hv1, hv2⟩ := hdist2 i hi2
    refine ⟨v, hv1, ?_⟩
    rw [hv2, Real.sqrt_sq hlen]

/-- Witness for C7 at interpret(0, 0, 1, "F"). -/
theorem turtle_polyline_witness :
    ((0 : ℝ) ≤ 1 ∧ ∀ ch ∈ (['F'] : List Char), ch = 'F' ∨ ch = '+' ∨ ch = '-') ∧
    ∃ pts : List (ℝ × ℝ),
      generate_points 0 0 1 ['F'] = some pts ∧
      pts.length = (['F'] : List Char).count 'F' + 1 ∧
      pts.getD 0 (0, 0) = (0, 0) ∧
      (∀ i, i + 1 < pts.length →
        ∃ v : ℝ × ℝ,
          pts.getD (i + 1) (0, 0) =
            ((pts.getD i (0, 0)).1 + v.1, (pts.getD i (0, 0)).2 + v.2) ∧
          Real.sqrt (v.1 ^ 2 + v.2 ^ 2) = 1) :=
  ⟨⟨by norm_num, by decide⟩,
   turtle_polyline 0 0 1 (by norm_num) ['F'] (by decide)⟩

/-- Number of symbols of a string that take the else (write) branch of
the turtle loop, i.e. that are neither + nor -. -/
def elseCount : List Char → ℕ
  | [] => 0
  | ch :: rest => (if ch = '+' ∨ ch = '-' then 0 else 1) + elseCount rest

/-- When the pending writes outnumber the remaining slots, the turtle
loop fails with an out-of-bounds write. -/
lemma runTurtle_overflow (rot_left rot_right : Mat2) :
    ∀ (rest : List Char) (pts : List (ℝ × ℝ)) (k : ℕ) (w : ℝ × ℝ),
      pts.length < k + elseCount rest →
      1 ≤ elseCount rest →
      runTurtle rot_left rot_right ⟨pts, k, w⟩ rest = none := by
  intro rest
  induction rest with
  | nil =>
    intro pts k w _ h2
    simp [elseCount] at h2
  | cons ch t ih =>
    intro pts k w h1 h2
    by_cases hp : ch = '+'
    · subst hp
      have he : elseCount ('+' :: t) = elseCount t := by simp [elseCount]
      simp only [runTurtle]
      rw [turtleStep_plus]
      exact ih pts k _ (by omega) (by omega)
    · by_cases hm : ch = '-'
      · subst hm
        have he : elseCount ('-' :: t) = elseCount t := by simp [elseCount]
        simp only [runTurtle]
        rw [turtleStep_minus]
        exact ih pts k _ (by omega) (by omega)
      · have he : elseCount (ch :: t) = 1 + elseCount t := by
          simp [elseCount, hp, hm]
        by_cases hw : k < pts.length
        · simp only [runTurtle]
          rw [turtleStep_write rot_left rot_right ⟨pts, k, w⟩ ch hp hm hw]
          exact ih (pts.set k ((pts.getD (k - 1) (0, 0)).1 + w.1,
              (pts.getD (k - 1) (0, 0)).2 + w.2)) (k + 1) w
            (by rw [List.length_set]; omega) (by omega)
        · simp only [runTurtle]
          rw [turtleStep_oob rot_left rot_right ⟨pts, k, w⟩ ch hp hm hw]

/-- Forward writes are at least as frequent as F symbols. -/
lemma count_le_elseCount (states : List Char) :
    states.count 'F' ≤ elseCount states := by
  induction states with
  | nil => simp [elseCount]
  | cons ch t ih =>
    by_cases h : ch = 'F'
    · subst h
      have h2 : elseCount ('F' :: t) = 1 + elseCount t := by simp [elseCount]
      have h3 : List.count 'F' ('F' :: t) = List.count 'F' t + 1 := by
        simp [List.count_cons]
      omega
    · have h3 : List.count 'F' (ch :: t) = List.count 'F' t := by
        simp [List.count_cons, h]
      have h2 : elseCount t ≤ elseCount (ch :: t) := by
        rw [elseCount]
        split <;> omega
      omega

/-- A symbol outside the drawing alphabet makes the writes strictly
outnumber the F symbols. -/
lemma count_lt_elseCount (states : List Char) (ch : Char) (hmem : ch ∈ states)
    (hF : ch ≠ 'F') (hp : ch ≠ '+') (hm : ch ≠ '-') :
    states.count 'F' + 1 ≤ elseCount states := by
  induction states with
  | nil => simp at hmem
  | cons c2 t ih =>
    rcases List.mem_cons.mp hmem with rfl | hmem2
    · have h2 : elseCount (ch :: t) = 1 + elseCount t := by
        simp [elseCount, hp, hm]
      have h3 : List.count 'F' (ch :: t) = List.count 'F' t := by
        simp [List.count_cons, hF]
      have h4 := count_le_elseCount t
      omega
    · have h4 := ih hmem2
      by_cases h : c2 = 'F'
      · subst h
        have h2 : elseCount ('F' :: t) = 1 + elseCount t := by simp [elseCount]
        have h3 : List.count 'F' ('F' :: t) = List.count 'F' t + 1 := by
          simp [List.count_cons]
        omega
      · have h3 : List.count 'F' (c2 :: t) = List.count 'F' t := by
          simp [List.count_cons, h]
        have h2 : elseCount t ≤ elseCount (c2 :: t) := by
          rw [elseCount]
          split <;> omega
        omega

/-- C10: the turtle interpreter treats every character other than + and
- as a forward step, while the output array only has count('F') + 1
slots; for every input string containing a character outside the
drawing alphabet, interpretation runs past the end of the array and
fails with an out-of-bounds index error instead of returning points. -/
theorem foreign_symbol_out_of_bounds (alpha theta length : ℝ)
    (states : List Char)
    (h : ∃ ch ∈ states, ch ≠ 'F' ∧ ch ≠ '+' ∧ ch ≠ '-') :
    generate_points alpha theta length states = none := by
  obtain ⟨ch, hmem, hF, hp, hm⟩ := h
  have hcnt := count_lt_elseCount states ch hmem hF hp hm
  simp only [generate_points]
  rw [runTurtle_overflow (calc_rot_matrix (radians theta))
    (calc_rot_matrix (-radians theta)) states
    (List.replicate (states.count 'F' + 1) ((0 : ℝ), (0 : ℝ))) 1 _
    (by rw [List.length_replicate]; omega) (by omega)]
  rfl

/-- Witness for C10 at interpret(0, 0, 1, "X"). -/
theorem foreign_symbol_out_of_bounds_witness :
    (∃ ch ∈ (['X'] : List Char), ch ≠ 'F' ∧ ch ≠ '+' ∧ ch ≠ '-') ∧
    generate_points 0 0 1 ['X'] = none :=
  ⟨by decide, foreign_symbol_out_of_bounds 0 0 1 ['X'] (by decide)⟩

/-- C3: the + symbol rotates the heading clockwise (it applies the
matrix built from the negated turn angle) and the - symbol applies the
positive-angle counter-clockwise matrix; consequently
interpret(0, 90, 1, "F+F+F+F") starting at the origin with heading
(1, 0) produces the points (0,0), (1,0), (1,-1), (0,-1), (0,0). -/
theorem turn_sign_convention_square :
    (∀ (theta : ℝ) (s : TurtleState),
      turtleStep (calc_rot_matrix theta) (calc_rot_matrix (-theta)) s '+' =
        some { s with vec := (calc_rot_matrix (-theta)).mulVec s.vec } ∧
      turtleStep (calc_rot_matrix theta) (calc_rot_matrix (-theta)) s '-' =
        some { s with vec := (calc_rot_matrix theta).mulVec s.vec }) ∧
    generate_points 0 90 1 ['F', '+', 'F', '+', 'F', '+', 'F'] =
      some [(0, 0), (1, 0), (1, -1), (0, -1), (0, 0)] := by
  constructor
  · intro theta s
    exact ⟨turtleStep_plus _ _ s, turtleStep_minus _ _ s⟩
  · have hrad0 : radians 0 = 0 := by simp [radians]
    have hrad90 : radians 90 = Real.pi / 2 := by rw [radians]; ring
    have hL : calc_rot_matrix (radians 90) = ⟨0, -1, 1, 0⟩ := by
      rw [hrad90, calc_rot_matrix, Real.cos_pi_div_two, Real.sin_pi_div_two]
    have hR : calc_rot_matrix (-radians 90) = ⟨0, 1, -1, 0⟩ := by
      rw [hrad90, calc_rot_matrix]
      rw [Real.cos_neg, Real.sin_neg, Real.cos_pi_div_two, Real.sin_pi_div_two]
      norm_num
    have hcount :
        (['F', '+', 'F', '+', 'F', '+', 'F'] : List Char).count 'F' = 4 := by
      decide
    have hrun :
        runTurtle ⟨0, -1, 1, 0⟩ ⟨0, 1, -1, 0⟩
          ⟨List.replicate 5 ((0 : ℝ), (0 : ℝ)), 1, (1, 0)⟩
          ['F', '+', 'F', '+', 'F', '+', 'F'] =
        some ⟨[(0, 0), (1, 0), (1, -1), (0, -1), (0, 0)], 5, (0, 1)⟩ := by
      norm_num [runTurtle, turtleStep, Mat2.mulVec, List.getD, List.set,
        List.replicate,
        show ('F' : Char) ≠ '+' from by decide,
        show ('F' : Char) ≠ '-' from by decide]
    have hvec :
        (Real.cos (radians 0) /
            Real.sqrt (Real.cos (radians 0) ^ 2 + Real.sin (radians 0) ^ 2) * 1,
         Real.sin (radians 0) /
            Real.sqrt (Real.cos (radians 0) ^ 2 + Real.sin (radians 0) ^ 2) * 1) =
        ((1 : ℝ), (0 : ℝ)) := by
      rw [hrad0, Real.cos_zero, Real.sin_zero]
      norm_num
    simp only [generate_points, hcount, hL, hR, hvec, hrun]
    rfl
